import Mathlib

/-!
Verification of the resampling and signal-modification core of the
Data_modify application (`src/main_window.py`).

The embedding models a pandas DataFrame as an ordered list of named
columns, each an ordered list of cells.  A cell is either a rational
number, the missing-value marker NaN, or an unparseable text cell
(which `pd.to_numeric(errors='coerce')` turns into NaN).  Machine
floats are modelled by exact rationals.

The scipy interpolation kernels (`interp1d`, `CubicSpline`,
`PchipInterpolator`, `Akima1DInterpolator`) are external library
collaborators; they are modelled as an abstract kernel family
parameter: given the method name, the (coerced) column values over the
integer grid `0..n-1`, and a query point, the family returns a cell.
The engine itself (dispatch, grid construction, grouping, filtering,
splicing) is translated from the source.
-/

namespace DataModify

/-- A table cell: a numeric value, the NaN missing marker, or a text
cell that does not parse as a number. -/
inductive RCell where
  | num (q : ℚ)
  | nan
  | txt
deriving DecidableEq, Repr

/-- Numeric view of a cell (`None` for NaN and unparseable text). -/
def RCell.toNum : RCell → Option ℚ
  | .num q => some q
  | .nan => none
  | .txt => none

/-- `pd.to_numeric(errors='coerce')` on one cell: numbers stay, NaN
stays NaN, unparseable text becomes NaN. -/
def coerceCell (c : RCell) : RCell :=
  match c.toNum with
  | some q => .num q
  | none => .nan

/-- An elementwise scalar operation with numpy NaN propagation. -/
def cellOp (f : ℚ → ℚ) (c : RCell) : RCell :=
  match c.toNum with
  | some q => .num (f q)
  | none => .nan

abbrev Col := List RCell

/-- A table: ordered named columns. -/
abbrev Table := List (String × Col)

def colNames (df : Table) : List String := df.map Prod.fst

/-- Column lookup by name (empty column if absent). -/
def lookupCol (df : Table) (c : String) : Col :=
  ((df.find? (fun p => p.1 == c)).map Prod.snd).getD []

/-- Row count of a table, read off the first column (pandas keeps all
columns at equal length). -/
def nRows : Table → ℕ
  | [] => 0
  | (_, col) :: _ => col.length

/-- Well-formedness: every column has the table's row count. -/
abbrev WF (df : Table) : Prop := ∀ p ∈ df, (Prod.snd p).length = nRows df

def mapCells (f : RCell → RCell) (df : Table) : Table :=
  df.map (fun p => (p.1, p.2.map f))

/-- Whole-table numeric coercion: the loop
`result_df[col] = pd.to_numeric(result_df[col], errors='coerce')`. -/
def coerceTable (df : Table) : Table := mapCells coerceCell df

/-- Python slice `col[s:e]` for non-negative bounds (clamping). -/
def sliceCol (s e : ℕ) (col : Col) : Col := (col.take e).drop s

/-- `int(q)` of Python: truncation toward zero. -/
def ratTrunc (q : ℚ) : ℤ := if q < 0 then -⌊-q⌋ else ⌊q⌋

/-- The point `np.linspace(0, n-1, newLen)[k]`. -/
def newIdx (n newLen k : ℕ) : ℚ :=
  if newLen ≤ 1 then 0 else (k : ℚ) * ((n : ℚ) - 1) / ((newLen : ℚ) - 1)

/-- Abstract family of interpolation kernels (the scipy collaborators):
method name, coerced column values over grid `0..n-1`, query point. -/
abbrev KernelFamily := String → Col → ℚ → RCell

/-- A trivial concrete kernel family, used to evaluate the model at
concrete inputs. -/
def Kzero : KernelFamily := fun _ _ _ => .num 0

/-- Group size for downsampling: `group_size = int(1 / ratio)`,
clamped to a minimum of 1.  At `ratio = 0` the source line raises
`ZeroDivisionError` before any clamping (see `applyRaisesDivZero`);
the total model returns 1 there, a value the theorems never rely on:
every claim about downsampling assumes `ratio ≠ 0`. -/
def groupSize (ratio : ℚ) : ℕ :=
  let g := ratTrunc (1 / ratio)
  if g < 1 then 1 else g.toNat

/-- Consecutive chunks of size `gp + 1` (last chunk may be shorter):
the partition induced by `groupby(np.arange(len) // group_size)`. -/
def chunksP (gp : ℕ) : List RCell → List (List RCell)
  | [] => []
  | x :: xs => ((x :: xs).take (gp + 1)) :: chunksP gp (xs.drop gp)
termination_by l => l.length
decreasing_by simp [List.length_drop]; omega

/-- The numeric values present in a group (NaN and text dropped). -/
def presentVals (l : Col) : List ℚ := l.filterMap RCell.toNum

/-- Group mean, ignoring missing values; NaN when the group has no
numeric value (pandas `groupby(...).mean()`). -/
def meanCell (l : Col) : RCell :=
  let xs := presentVals l
  if xs.isEmpty then .nan else .num (xs.sum / (xs.length : ℚ))

/-- Group max ignoring missing values (pandas `groupby(...).max()`). -/
def maxCell (l : Col) : RCell :=
  match (presentVals l).max? with
  | some m => .num m
  | none => .nan

/-- Group min ignoring missing values (pandas `groupby(...).min()`). -/
def minCell (l : Col) : RCell :=
  match (presentVals l).min? with
  | some m => .num m
  | none => .nan

/-- Dispatch of the three grouped aggregations. -/
def groupReduce (method : String) (l : Col) : RCell :=
  if method = "Average" then meanCell l
  else if method = "Max" then maxCell l
  else minCell l

/-- One step list of the low-pass loop on a float64 column, carrying
the previous output: `y = y_prev` when the input is NaN, else
`alpha*x + (1-alpha)*y_prev` (NaN-propagating float arithmetic).  The
buffer `np.zeros_like(data)` is float64 here because the column's
dtype is float64 — which is forced whenever any cell is missing.  For
a column held at an integer dtype see `lpfColInt`. -/
def lpfGo (alpha : ℚ) (prev : RCell) : Col → Col
  | [] => []
  | c :: cs =>
    let y : RCell :=
      match c.toNum, prev.toNum with
      | some v, some p => .num (alpha * v + (1 - alpha) * p)
      | some _, none => .nan
      | none, _ => prev
    y :: lpfGo alpha y cs

/-- Low-pass filter of one float64 column: `filtered_data[0] = data[0]`,
then the loop over `range(1, len(data))`.  `alpha = dt / (tau + dt)`. -/
def lpfCol (tau dt : ℚ) : Col → Col
  | [] => []
  | x0 :: rest => x0 :: lpfGo (dt / (tau + dt)) x0 rest

/-- One step list of the high-pass loop, carrying the previous output
and the previous raw input `data[i-1]`: `y = y_prev` when the input is
NaN, else `alpha * (y_prev + x - x_prev)` (NaN-propagating). -/
def hpfGo (alpha : ℚ) (prevY prevX : RCell) : Col → Col
  | [] => []
  | c :: cs =>
    let y : RCell :=
      match c.toNum with
      | none => prevY
      | some v =>
        match prevY.toNum, prevX.toNum with
        | some py, some px => .num (alpha * (py + v - px))
        | _, _ => .nan
    y :: hpfGo alpha y c cs

/-- High-pass filter of one float64 column: `filtered_data[0] = 0`,
then the loop over `range(1, len(data))`.  `alpha = tau / (tau + dt)`.
For a column held at an integer dtype see `hpfColInt`. -/
def hpfCol (tau dt : ℚ) : Col → Col
  | [] => []
  | x0 :: rest => .num 0 :: hpfGo (tau / (tau + dt)) (.num 0) x0 rest

/-- The low-pass loop on a column held at an integer dtype (a NaN-free
all-integer column, as `pd.to_numeric` produces): the output buffer
`filtered_data = np.zeros_like(data)` inherits the integer dtype, so
every store casts the float64 value `alpha*x + (1-alpha)*y_prev` back
to the integer dtype, truncating toward zero.  `np.isnan` is always
false on integer data, so there is no missing-value branch. -/
def lpfIntAux (alpha : ℚ) (p : ℤ) : List ℤ → List ℤ
  | [] => []
  | v :: vs =>
    let y := ratTrunc (alpha * (v : ℚ) + (1 - alpha) * (p : ℚ))
    y :: lpfIntAux alpha y vs

/-- Low-pass filter of one integer-dtype column:
`filtered_data[0] = data[0]` (no cast needed), then the truncating
loop. -/
def lpfColInt (tau dt : ℚ) : List ℤ → List ℤ
  | [] => []
  | x0 :: rest => x0 :: lpfIntAux (dt / (tau + dt)) x0 rest

/-- The high-pass loop on an integer-dtype column: every store of
`alpha * (y_prev + x - x_prev)` truncates toward zero. -/
def hpfIntAux (alpha : ℚ) (py px : ℤ) : List ℤ → List ℤ
  | [] => []
  | v :: vs =>
    let y := ratTrunc (alpha * ((py : ℚ) + (v : ℚ) - (px : ℚ)))
    y :: hpfIntAux alpha y v vs

/-- High-pass filter of one integer-dtype column:
`filtered_data[0] = 0`, then the truncating loop. -/
def hpfColInt (tau dt : ℚ) : List ℤ → List ℤ
  | [] => []
  | x0 :: rest => 0 :: hpfIntAux (tau / (tau + dt)) 0 x0 rest

/-- The nine upsampling kernels dispatched in `apply_modification`. -/
def upsampleMethods : List String :=
  ["Linear", "Cubic", "Nearest", "Next", "Previous", "PCHIP", "V5Cubic", "Makima", "Spline"]

/-- The three downsampling aggregations. -/
def downMethods : List String := ["Average", "Max", "Min"]

/-- The four basic scalar arithmetic methods. -/
def basicMethods : List String :=
  ["Multiplication", "Division", "Addition", "Subtraction"]

/-- Every method string `apply_modification` dispatches on. -/
def recognizedMethods : List String :=
  basicMethods ++ ["LPF", "HPF"] ++ upsampleMethods ++ downMethods

/-- The raising condition of `apply_modification`: the unguarded
division `group_size = int(1 / ratio)` is reached exactly when a
downsampling aggregation is requested and the `ratio >= 1` guard has
failed, and it raises `ZeroDivisionError` exactly when `ratio = 0`
(Python float division by zero raises).  The total Lean engine model
collapses this error path, so it is recorded here as an explicit
predicate rather than an `Except` result. -/
def applyRaisesDivZero (method : String) (ratio : ℚ) : Prop :=
  method ∈ downMethods ∧ ¬ (1 : ℚ) ≤ ratio ∧ ratio = 0

/-- `MainWindow.apply_modification(df_subset, method, value, ratio)`:
coerce every column to numeric, then dispatch on the method string.
`dt` models `getattr(self, 'current_dt', 1.0)`.  `K` models the scipy
interpolators.  The source returns `result_df` (the coerced copy) on
every fall-through path. -/
def apply_modification (K : KernelFamily) (df_subset : Table)
    (method : String) (value ratio dt : ℚ) : Table :=
  let r := coerceTable df_subset
  if method = "Multiplication" then mapCells (cellOp (· * value)) r
  else if method = "Division" then
    if value ≠ 0 then mapCells (cellOp (· / value)) r else r
  else if method = "Addition" then mapCells (cellOp (· + value)) r
  else if method = "Subtraction" then mapCells (cellOp (· - value)) r
  else if method = "LPF" ∨ method = "HPF" then
    if value ≤ 0 then r
    else r.map (fun p =>
      (p.1, if method = "LPF" then lpfCol value dt p.2 else hpfCol value dt p.2))
  else if method ∈ upsampleMethods then
    if ratio ≤ 1 then r
    else
      let n := nRows r
      let newLen := (ratTrunc ((n : ℚ) * ratio)).toNat
      r.map (fun p =>
        (p.1, (List.range newLen).map (fun k => K method p.2 (newIdx n newLen k))))
  else if method ∈ downMethods then
    if 1 ≤ ratio then r
    else r.map (fun p =>
      (p.1, (chunksP (groupSize ratio - 1) p.2).map (groupReduce method)))
  else r

/-- The synchronization method used for non-selected columns when a
resampling changes the row count:
`sync_method = "Linear" if ratio > 1 else "Average"`. -/
def sync_method (ratio : ℚ) : String := if 1 < ratio then "Linear" else "Average"

/-- `self.df.iloc[start:end][selected_cols]`. -/
def subsetOf (df : Table) (s e : ℕ) (sel : List String) : Table :=
  sel.map (fun c => (c, sliceCol s e (lookupCol df c)))

/-- `self.df.loc[start:end-1, col] = values`: overwrite the (clamped)
row range `[s, e)`; empty selection when `s > e`. -/
def writeRange (s e : ℕ) (col : Col) (v : Col) : Col :=
  if s ≤ e then col.take s ++ v ++ col.drop e else col

/-- The merge step of `MainWindow.execute_modification`: run the
engine on the selected subset; if the row count is unchanged, write
the result back in place over the selected columns; otherwise rebuild
the table as `df.iloc[:start] ++ middle ++ df.iloc[end:]`, where the
middle block is produced column-by-column (selected columns by the
requested method, others by the synchronization method). -/
def execute_modification (K : KernelFamily) (df : Table) (s e : ℕ)
    (sel : List String) (method : String) (value ratio dt : ℚ) : Table :=
  let subset := subsetOf df s e sel
  let modified := apply_modification K subset method value ratio dt
  if nRows modified = nRows subset then
    df.map (fun p =>
      if p.1 ∈ sel then (p.1, writeRange s e p.2 (lookupCol modified p.1)) else p)
  else
    df.map (fun p =>
      let colTbl : Table := [(p.1, sliceCol s e p.2)]
      let m :=
        if p.1 ∈ sel then apply_modification K colTbl method value ratio dt
        else apply_modification K colTbl (sync_method ratio) value ratio dt
      (p.1, p.2.take s ++ lookupCol m p.1 ++ p.2.drop e))

/-- A table with no unparseable text cell (so numeric coercion is the
identity): the "numeric subset" of the specification. -/
abbrev NumericTable (df : Table) : Prop :=
  ∀ p ∈ df, ∀ c ∈ (Prod.snd p : Col), c ≠ RCell.txt

/-- The per-column action of `apply_modification`, with the ambient
row count `n` (the source computes `len(result_df)` once and uses it
for every column). -/
def applyColFun (K : KernelFamily) (method : String) (value ratio dt : ℚ)
    (n : ℕ) (col : Col) : Col :=
  if method = "Multiplication" then col.map (cellOp (· * value))
  else if method = "Division" then
    if value ≠ 0 then col.map (cellOp (· / value)) else col
  else if method = "Addition" then col.map (cellOp (· + value))
  else if method = "Subtraction" then col.map (cellOp (· - value))
  else if method = "LPF" ∨ method = "HPF" then
    if value ≤ 0 then col
    else if method = "LPF" then lpfCol value dt col else hpfCol value dt col
  else if method ∈ upsampleMethods then
    if ratio ≤ 1 then col
    else
      let newLen := (ratTrunc ((n : ℚ) * ratio)).toNat
      (List.range newLen).map (fun k => K method col (newIdx n newLen k))
  else if method ∈ downMethods then
    if 1 ≤ ratio then col
    else (chunksP (groupSize ratio - 1) col).map (groupReduce method)
  else col

/-- Output row count of the engine as a function of the input row
count. -/
def modLen (method : String) (_value ratio : ℚ) (m : ℕ) : ℕ :=
  if method = "LPF" ∨ method = "HPF" then m
  else if method ∈ upsampleMethods then
    if ratio ≤ 1 then m else (ratTrunc ((m : ℚ) * ratio)).toNat
  else if method ∈ downMethods then
    if 1 ≤ ratio then m
    else (m + (groupSize ratio - 1)) / groupSize ratio
  else m

/-- The column the rebuilt middle block holds for column `p`: the
requested method's engine output if `p` is selected, otherwise the
same row range run through the synchronization method. -/
def middleCol (K : KernelFamily) (s e : ℕ) (sel : List String)
    (method : String) (value ratio dt : ℚ) (p : String × Col) : Col :=
  lookupCol
    (apply_modification K [(p.1, sliceCol s e p.2)]
      (if p.1 ∈ sel then method else sync_method ratio) value ratio dt) p.1

/-- A purely numeric column. -/
def numCol (l : List ℚ) : Col := l.map RCell.num

/-- Numeric value of a cell, defaulting to 0 (used only to state the
filter recurrences on NaN-free data). -/
def cellVal (c : RCell) : ℚ := c.toNum.getD 0

/-- The low-pass loop on NaN-free data, carrying the previous output. -/
def lpfAux (alpha p : ℚ) : List ℚ → List ℚ
  | [] => []
  | v :: vs =>
    (alpha * v + (1 - alpha) * p) :: lpfAux alpha (alpha * v + (1 - alpha) * p) vs

/-- The high-pass loop on NaN-free data, carrying the previous output
and the previous input. -/
def hpfAux (alpha py px : ℚ) : List ℚ → List ℚ
  | [] => []
  | v :: vs =>
    (alpha * (py + v - px)) :: hpfAux alpha (alpha * (py + v - px)) v vs

theorem coerceCell_of_ne_txt {c : RCell} (h : c ≠ RCell.txt) : coerceCell c = c := by
  cases c <;> simp [coerceCell, RCell.toNum] at h ⊢

theorem map_coerce_of_ne_txt {col : Col} (h : ∀ c ∈ col, c ≠ RCell.txt) :
    col.map coerceCell = col := by
  induction col with
  | nil => rfl
  | cons c cs ih =>
    simp only [List.map_cons]
    rw [coerceCell_of_ne_txt (h c (by simp)), ih (fun d hd => h d (by simp [hd]))]

theorem coerceTable_of_numeric {df : Table} (h : NumericTable df) :
    coerceTable df = df := by
  unfold coerceTable mapCells
  induction df with
  | nil => rfl
  | cons p rest ih =>
    have hrest : NumericTable rest := fun q hq => h q (List.mem_cons_of_mem _ hq)
    simp only [List.map_cons, ih hrest]
    rw [map_coerce_of_ne_txt (h p (by simp)), Prod.mk.eta]

theorem colNames_map {df : Table} {F : String × Col → Col} :
    colNames (df.map (fun p => (p.1, F p))) = colNames df := by
  simp [colNames, List.map_map, Function.comp]

theorem nRows_coerceTable (df : Table) : nRows (coerceTable df) = nRows df := by
  cases df <;> simp [coerceTable, mapCells, nRows]

theorem length_coerce (col : Col) : (col.map coerceCell).length = col.length := by
  simp

/-- The engine acts column-by-column: `apply_modification` is the map
of `applyColFun` over the coerced table. -/
theorem apply_eq_map (K : KernelFamily) (df : Table) (method : String)
    (value ratio dt : ℚ) :
    apply_modification K df method value ratio dt
      = (coerceTable df).map
          (fun p => (p.1, applyColFun K method value ratio dt (nRows df) p.2)) := by
  unfold apply_modification applyColFun
  by_cases h1 : method = "Multiplication"
  · simp [h1, mapCells]
  by_cases h2 : method = "Division"
  · by_cases hv : value = 0 <;> simp [h1, h2, hv, mapCells]
  by_cases h3 : method = "Addition"
  · simp [h1, h2, h3, mapCells]
  by_cases h4 : method = "Subtraction"
  · simp [h1, h2, h3, h4, mapCells]
  by_cases h5 : method = "LPF" ∨ method = "HPF"
  · by_cases hv : value ≤ 0
    · simp [h1, h2, h3, h4, h5, hv]
    · rcases h5 with h5 | h5 <;> simp [h1, h2, h3, h4, h5, hv]
  by_cases h6 : method ∈ upsampleMethods
  · by_cases hr : ratio ≤ 1 <;> simp [h1, h2, h3, h4, h5, h6, hr, nRows_coerceTable]
  by_cases h7 : method ∈ downMethods
  · by_cases hr : (1 : ℚ) ≤ ratio <;> simp [h1, h2, h3, h4, h5, h6, h7, hr]
  · simp [h1, h2, h3, h4, h5, h6, h7]

theorem lpfGo_length (alpha : ℚ) (prev : RCell) (l : Col) :
    (lpfGo alpha prev l).length = l.length := by
  induction l generalizing prev with
  | nil => rfl
  | cons c cs ih => simp [lpfGo, ih]

theorem lpfCol_length (tau dt : ℚ) (l : Col) :
    (lpfCol tau dt l).length = l.length := by
  cases l <;> simp [lpfCol, lpfGo_length]

theorem hpfGo_length (alpha : ℚ) (prevY prevX : RCell) (l : Col) :
    (hpfGo alpha prevY prevX l).length = l.length := by
  induction l generalizing prevY prevX with
  | nil => rfl
  | cons c cs ih => simp [hpfGo, ih]

theorem hpfCol_length (tau dt : ℚ) (l : Col) :
    (hpfCol tau dt l).length = l.length := by
  cases l <;> simp [hpfCol, hpfGo_length]

theorem chunksP_length (gp : ℕ) (l : List RCell) :
    (chunksP gp l).length = (l.length + gp) / (gp + 1) := by
  induction l using chunksP.induct gp with
  | case1 =>
    simp only [chunksP, List.length_nil, Nat.zero_add]
    exact (Nat.div_eq_of_lt (by omega)).symm
  | case2 x xs ih =>
    rw [chunksP]
    simp only [List.length_cons, List.length_drop] at ih ⊢
    rw [ih]
    have key : (xs.length - gp + gp) / (gp + 1) = xs.length / (gp + 1) := by
      rcases Nat.le_total gp xs.length with h | h
      · rw [Nat.sub_add_cancel h]
      · rw [Nat.sub_eq_zero_of_le h, Nat.zero_add,
          Nat.div_eq_of_lt (by omega), Nat.div_eq_of_lt (by omega)]
    rw [key, show xs.length + 1 + gp = xs.length + (gp + 1) by omega,
      Nat.add_div_right _ (by omega)]

theorem chunksP_flatten (gp : ℕ) (l : List RCell) :
    (chunksP gp l).flatten = l := by
  induction l using chunksP.induct gp with
  | case1 => simp [chunksP]
  | case2 x xs ih =>
    have hd : (x :: xs).drop (gp + 1) = xs.drop gp := by simp
    rw [chunksP, List.flatten_cons, ih, ← hd, List.take_append_drop]

theorem chunksP_mem_length_le (gp : ℕ) (l : List RCell) :
    ∀ c ∈ chunksP gp l, c.length ≤ gp + 1 := by
  induction l using chunksP.induct gp with
  | case1 => simp [chunksP]
  | case2 x xs ih =>
    intro c hc
    rw [chunksP] at hc
    rcases List.mem_cons.mp hc with h | h
    · subst h; simp
    · exact ih c h

theorem chunksP_dropLast_length (gp : ℕ) (l : List RCell) :
    ∀ c ∈ (chunksP gp l).dropLast, c.length = gp + 1 := by
  induction l using chunksP.induct gp with
  | case1 => simp [chunksP]
  | case2 x xs ih =>
    intro c hc
    rw [chunksP] at hc
    rcases hrest : chunksP gp (xs.drop gp) with _ | ⟨hd, tl⟩
    · rw [hrest] at hc
      simp at hc
    · rw [hrest] at hc
      rw [List.dropLast_cons₂] at hc
      rcases List.mem_cons.mp hc with h | h
      · subst h
        have hlen : gp < xs.length := by
          by_contra hle
          push_neg at hle
          rw [List.drop_eq_nil_of_le hle] at hrest
          simp [chunksP] at hrest
        simp only [List.length_take, List.length_cons]
        omega
      · rw [← hrest] at h
        exact ih c h

theorem groupSize_pos (ratio : ℚ) : 1 ≤ groupSize ratio := by
  simp only [groupSize]
  split
  · exact le_refl 1
  · next h => omega

theorem applyColFun_length (K : KernelFamily) (method : String)
    (value ratio dt : ℚ) (n : ℕ) (col : Col) (hc : col.length = n) :
    (applyColFun K method value ratio dt n col).length = modLen method value ratio n := by
  have hg := groupSize_pos ratio
  unfold applyColFun modLen
  by_cases h1 : method = "Multiplication"
  · subst h1; simp [upsampleMethods, downMethods, hc]
  by_cases h2 : method = "Division"
  · subst h2
    by_cases hv : value = 0 <;> simp [upsampleMethods, downMethods, hv, hc]
  by_cases h3 : method = "Addition"
  · subst h3; simp [h1, h2, upsampleMethods, downMethods, hc]
  by_cases h4 : method = "Subtraction"
  · subst h4; simp [h1, h2, h3, upsampleMethods, downMethods, hc]
  by_cases h5 : method = "LPF" ∨ method = "HPF"
  · by_cases hv : value ≤ 0
    · rcases h5 with h5 | h5 <;> subst h5 <;>
        simp [h1, h2, h3, h4, upsampleMethods, downMethods, hv, hc]
    · rcases h5 with h5 | h5 <;> subst h5 <;>
        simp [h1, h2, h3, h4, upsampleMethods, downMethods, hv, hc,
          lpfCol_length, hpfCol_length]
  by_cases h6 : method ∈ upsampleMethods
  · by_cases hr : ratio ≤ 1 <;> simp [h1, h2, h3, h4, h5, h6, hr, hc]
  by_cases h7 : method ∈ downMethods
  · by_cases hr : (1 : ℚ) ≤ ratio
    · simp [h1, h2, h3, h4, h5, h6, h7, hr, hc]
    · simp only [h1, h2, h3, h4, h5, h6, h7, hr, if_true, if_false, ite_false,
        ite_true, eq_self_iff_true, if_neg, not_false_iff]
      simp only [List.length_map, chunksP_length]
      rw [show groupSize ratio - 1 + 1 = groupSize ratio by omega, hc]
  · simp [h1, h2, h3, h4, h5, h6, h7, hc]

theorem lookupCol_singleton (c : String) (col : Col) :
    lookupCol [(c, col)] c = col := by
  simp [lookupCol, List.find?]

theorem lookupCol_map_fun (sel : List String) (g : String → Col) (c : String)
    (hc : c ∈ sel) :
    lookupCol (sel.map (fun x => (x, g x))) c = g c := by
  induction sel with
  | nil => cases hc
  | cons a rest ih =>
    by_cases hac : a = c
    · subst hac
      simp [lookupCol, List.find?]
    · have hmem : c ∈ rest := by
        rcases List.mem_cons.mp hc with h | h
        · exact absurd h.symm hac
        · exact h
      have hbeq : (a == c) = false := by
        simp [hac]
      simp only [List.map_cons, lookupCol, List.find?, hbeq]
      exact ih hmem

theorem modLen_zero (method : String) (value ratio : ℚ) :
    modLen method value ratio 0 = 0 := by
  have hg := groupSize_pos ratio
  unfold modLen
  split_ifs with h1 h2 h3 h4 h5
  · rfl
  · rfl
  · simp [ratTrunc]
  · rfl
  · exact Nat.div_eq_of_lt (by omega)
  · rfl

/-- The engine's output row count as a function of the input row
count. -/
theorem nRows_apply (K : KernelFamily) (df : Table) (method : String)
    (value ratio dt : ℚ) :
    nRows (apply_modification K df method value ratio dt)
      = modLen method value ratio (nRows df) := by
  rw [apply_eq_map]
  cases df with
  | nil => simp [coerceTable, mapCells, nRows, modLen_zero]
  | cons p rest =>
    simp only [coerceTable, mapCells, List.map_cons, nRows]
    exact applyColFun_length _ _ _ _ _ _ _ (by simp [nRows])

theorem sliceCol_length (s e : ℕ) (col : Col) (h1 : s ≤ e) (h2 : e ≤ col.length) :
    (sliceCol s e col).length = e - s := by
  simp only [sliceCol, List.length_drop, List.length_take]
  omega

theorem lookupCol_of_mem_nodup {df : Table} (hnd : (colNames df).Nodup)
    {p : String × Col} (hp : p ∈ df) : lookupCol df p.1 = p.2 := by
  induction df with
  | nil => cases hp
  | cons q rest ih =>
    rcases List.mem_cons.mp hp with h | h
    · subst h
      simp [lookupCol, List.find?]
    · have hq1 : q.1 ∉ colNames rest := by
        simpa [colNames] using (List.nodup_cons.mp hnd).1
      have hne : (q.1 == p.1) = false := by
        have : q.1 ≠ p.1 := by
          intro he
          exact hq1 (he ▸ List.mem_map_of_mem Prod.fst h)
        simp [this]
      simp only [lookupCol, List.find?, hne]
      exact ih (List.nodup_cons.mp hnd).2 h

theorem lookupCol_length_of_WF {df : Table} (hwf : WF df) {c : String}
    (hc : c ∈ colNames df) : (lookupCol df c).length = nRows df := by
  rcases List.mem_map.mp hc with ⟨p, hp, hpc⟩
  have hsome : (df.find? (fun q => q.1 == c)).isSome := by
    rw [List.find?_isSome]
    exact ⟨p, hp, by simp [hpc]⟩
  rcases hfind : df.find? (fun q => q.1 == c) with _ | q
  · rw [hfind] at hsome; cases hsome
  · have hqmem : q ∈ df := List.mem_of_find?_eq_some hfind
    simp only [lookupCol, hfind, Option.map_some, Option.getD_some]
    exact hwf q hqmem

theorem modLen_basic {method : String} (hm : method ∈ basicMethods)
    (value ratio : ℚ) (m : ℕ) : modLen method value ratio m = m := by
  simp only [basicMethods, List.mem_cons, List.mem_singleton, List.not_mem_nil,
    or_false] at hm
  rcases hm with h | h | h | h <;> subst h <;>
    simp [modLen, upsampleMethods, downMethods]

theorem applyColFun_basic {method : String} (hm : method ∈ basicMethods)
    (K : KernelFamily) (value ratio dt : ℚ) (n n' : ℕ) (col : Col) :
    applyColFun K method value ratio dt n col
      = applyColFun K method value ratio dt n' col := by
  simp only [basicMethods, List.mem_cons, List.mem_singleton, List.not_mem_nil,
    or_false] at hm
  rcases hm with h | h | h | h <;> subst h <;> simp [applyColFun]

/-- The engine on a selected subset, seen per selected column. -/
theorem apply_subsetOf (K : KernelFamily) (df : Table) (s e : ℕ)
    (sel : List String) (method : String) (value ratio dt : ℚ) :
    apply_modification K (subsetOf df s e sel) method value ratio dt
      = sel.map (fun c => (c, applyColFun K method value ratio dt
          (nRows (subsetOf df s e sel))
          ((sliceCol s e (lookupCol df c)).map coerceCell))) := by
  rw [apply_eq_map]
  simp [subsetOf, coerceTable, mapCells, List.map_map, Function.comp]

/-- For a basic arithmetic method the engine preserves the row count,
so the merge takes the in-place branch: transformed values are written
over rows `[s, e)` of the selected columns; everything else is kept. -/
theorem execute_basic_in_place (K : KernelFamily) (df : Table) (s e : ℕ)
    (sel : List String) (method : String) (value ratio dt : ℚ)
    (hnd : (colNames df).Nodup) (hse : s ≤ e)
    (hm : method ∈ basicMethods) :
    execute_modification K df s e sel method value ratio dt
      = df.map (fun p =>
          if p.1 ∈ sel then
            (p.1, p.2.take s
              ++ applyColFun K method value ratio dt (e - s)
                   ((sliceCol s e p.2).map coerceCell)
              ++ p.2.drop e)
          else p) := by
  unfold execute_modification
  rw [if_pos (by rw [nRows_apply, modLen_basic hm])]
  apply List.map_congr_left
  intro p hp
  by_cases hpsel : p.1 ∈ sel
  · simp only [hpsel, if_true, ite_true]
    rw [writeRange, if_pos hse, apply_subsetOf, lookupCol_map_fun _ _ _ hpsel,
      lookupCol_of_mem_nodup hnd hp,
      applyColFun_basic hm K value ratio dt _ (e - s)]
  · simp [hpsel]

/-- C2: for a basic arithmetic method the engine preserves the row
count, so `execute_modification` writes the transformed values back in
place over rows `[start, end)` of each selected column only; every
non-selected column and every row outside the range is unchanged, and
the total row count is preserved.  The last conjunct is Scenario 5:
a 10-row 2-column table, range `[2,5)`, `selected=[colA]`, Addition 5,
ratio 1. -/
theorem c2_splice_in_place (K : KernelFamily) (df : Table) (s e : ℕ)
    (sel : List String) (method : String) (value ratio dt : ℚ)
    (hwf : WF df) (hnd : (colNames df).Nodup) (hse : s ≤ e) (hen : e ≤ nRows df)
    (hm : method ∈ basicMethods) :
    (execute_modification K df s e sel method value ratio dt
      = df.map (fun p =>
          if p.1 ∈ sel then
            (p.1, p.2.take s
              ++ applyColFun K method value ratio dt (e - s)
                   ((sliceCol s e p.2).map coerceCell)
              ++ p.2.drop e)
          else p)) ∧
    nRows (execute_modification K df s e sel method value ratio dt) = nRows df ∧
    WF (execute_modification K df s e sel method value ratio dt) ∧
    execute_modification Kzero
      [("colA", numCol [0, 1, 2, 3, 4, 5, 6, 7, 8, 9]),
       ("colB", numCol [100, 101, 102, 103, 104, 105, 106, 107, 108, 109])]
      2 5 ["colA"] "Addition" 5 1 1
      = [("colA", numCol [0, 1, 7, 8, 9, 5, 6, 7, 8, 9]),
         ("colB", numCol [100, 101, 102, 103, 104, 105, 106, 107, 108, 109])] := by
  have hmain := execute_basic_in_place K df s e sel method value ratio dt hnd hse hm
  have hcol : ∀ p ∈ df,
      ((if p.1 ∈ sel then
          (p.1, p.2.take s
            ++ applyColFun K method value ratio dt (e - s)
                 ((sliceCol s e p.2).map coerceCell)
            ++ p.2.drop e)
        else p) : String × Col).2.length = nRows df := by
    intro p hp
    have hn := hwf p hp
    by_cases hpsel : p.1 ∈ sel
    · simp only [hpsel, if_true, ite_true, List.length_append, List.length_take,
        List.length_drop]
      rw [applyColFun_length _ _ _ _ _ _ _
          (by rw [List.length_map, sliceCol_length s e p.2 hse (by omega)]),
        modLen_basic hm]
      omega
    · simp [hpsel, hn]
  have hrows : nRows (execute_modification K df s e sel method value ratio dt)
      = nRows df := by
    rw [hmain]
    cases df with
    | nil => rfl
    | cons p rest =>
      have := hcol p (by simp)
      simp only [List.map_cons, nRows] at this ⊢
      exact this
  refine ⟨hmain, hrows, ?_, ?_⟩
  · intro q hq
    rw [hmain] at hq
    rcases List.mem_map.mp hq with ⟨p, hp, rfl⟩
    rw [hrows]
    exact hcol p hp
  · rw [execute_basic_in_place Kzero _ 2 5 ["colA"] "Addition" 5 1 1 (by decide)
      (by decide) (by decide)]
    norm_num [applyColFun, sliceCol, coerceCell, cellOp, RCell.toNum, numCol]
    decide

/-- The engine on a single-column table. -/
theorem apply_single (K : KernelFamily) (method : String) (value ratio dt : ℚ)
    (c : String) (col : Col) :
    apply_modification K [(c, col)] method value ratio dt
      = [(c, applyColFun K method value ratio dt col.length (col.map coerceCell))] := by
  rw [apply_eq_map]
  simp [coerceTable, mapCells, nRows]

/-- The rebuilt middle block's column, written per column. -/
theorem middleCol_eq (K : KernelFamily) (s e : ℕ) (sel : List String)
    (method : String) (value ratio dt : ℚ) (p : String × Col) :
    middleCol K s e sel method value ratio dt p
      = applyColFun K (if p.1 ∈ sel then method else sync_method ratio)
          value ratio dt (sliceCol s e p.2).length
          ((sliceCol s e p.2).map coerceCell) := by
  unfold middleCol
  rw [apply_single, lookupCol_singleton]

/-- When a method changes the row count, the synchronization method
chosen from the ratio direction produces that same row count. -/
theorem modLen_sync (method : String) (value ratio : ℚ) (m : ℕ)
    (hdm : modLen method value ratio m ≠ m) :
    modLen (sync_method ratio) value ratio m = modLen method value ratio m := by
  by_cases h5 : method = "LPF" ∨ method = "HPF"
  · exact absurd (by simp [modLen, h5]) hdm
  by_cases h6 : method ∈ upsampleMethods
  · by_cases hr : ratio ≤ 1
    · exact absurd (by simp [modLen, h5, h6, hr]) hdm
    · have hlt : 1 < ratio := not_le.mp hr
      rw [show sync_method ratio = "Linear" by simp [sync_method, hlt]]
      rw [show modLen "Linear" value ratio m = (ratTrunc ((m : ℚ) * ratio)).toNat by
        simp [modLen, upsampleMethods, hr]]
      simp [modLen, h5, h6, hr]
  by_cases h7 : method ∈ downMethods
  · by_cases hr : (1 : ℚ) ≤ ratio
    · exact absurd (by simp [modLen, h5, h6, h7, hr]) hdm
    · have hlt : ¬ (1 < ratio) := fun h => hr (le_of_lt h)
      rw [show sync_method ratio = "Average" by simp [sync_method, hlt]]
      rw [show modLen "Average" value ratio m
          = (m + (groupSize ratio - 1)) / groupSize ratio by
        simp [modLen, upsampleMethods, downMethods, hr]]
      simp [modLen, h5, h6, h7, hr]
  · exact absurd (by simp [modLen, h5, h6, h7]) hdm

/-- C1: when the engine's output row count differs from `end - start`
(true resampling), the spliced table is the concatenation, in order,
of rows `[0,start)` unchanged, a rebuilt middle block, and rows
`[end, oldRowCount)` unchanged (in the list model, concatenation in
position renumbers rows `0..N-1` contiguously).  In the middle block a
selected column holds the requested method's output, a non-selected
column holds the same row range transformed with the synchronization
method (`Linear` if ratio > 1, else `Average`) at the same ratio,
every middle-block column has identical length, the output has exactly
the input's column set, and every output column has the same length
`start + middleLen + (oldRowCount - end)`. -/
theorem c1_resample_splice (K : KernelFamily) (df : Table) (s e : ℕ)
    (sel : List String) (method : String) (value ratio dt : ℚ)
    (hwf : WF df) (hse : s ≤ e) (hen : e ≤ nRows df)
    (hsub : ∀ c ∈ sel, c ∈ colNames df) (hne : sel ≠ [])
    (hdiff : nRows (apply_modification K (subsetOf df s e sel) method value ratio dt)
             ≠ nRows (subsetOf df s e sel)) :
    (execute_modification K df s e sel method value ratio dt
      = df.map (fun p =>
          (p.1, p.2.take s ++ middleCol K s e sel method value ratio dt p
            ++ p.2.drop e))) ∧
    (∀ p ∈ df, (middleCol K s e sel method value ratio dt p).length
        = modLen method value ratio (e - s)) ∧
    (∀ p ∈ df, p.1 ∈ sel → middleCol K s e sel method value ratio dt p
        = lookupCol (apply_modification K [(p.1, sliceCol s e p.2)]
            method value ratio dt) p.1) ∧
    (∀ p ∈ df, p.1 ∉ sel → middleCol K s e sel method value ratio dt p
        = lookupCol (apply_modification K [(p.1, sliceCol s e p.2)]
            (sync_method ratio) value ratio dt) p.1) ∧
    colNames (execute_modification K df s e sel method value ratio dt)
      = colNames df ∧
    (∀ q ∈ execute_modification K df s e sel method value ratio dt,
      (Prod.snd q).length
        = s + modLen method value ratio (e - s) + (nRows df - e)) ∧
    nRows (execute_modification K df s e sel method value ratio dt)
      = s + modLen method value ratio (e - s) + (nRows df - e) := by
  obtain ⟨c0, rest, rfl⟩ : ∃ c0 rest, sel = c0 :: rest := by
    cases sel with
    | nil => exact absurd rfl hne
    | cons a l => exact ⟨a, l, rfl⟩
  have hc0 : c0 ∈ colNames df := hsub c0 (by simp)
  have hnsub : nRows (subsetOf df s e (c0 :: rest)) = e - s := by
    simp only [subsetOf, List.map_cons, nRows]
    rw [sliceCol_length s e _ hse (by rw [lookupCol_length_of_WF hwf hc0]; exact hen)]
  have hdm : modLen method value ratio (e - s) ≠ e - s := by
    rw [nRows_apply, hnsub] at hdiff
    exact hdiff
  have hmain : execute_modification K df s e (c0 :: rest) method value ratio dt
      = df.map (fun p =>
          (p.1, p.2.take s ++ middleCol K s e (c0 :: rest) method value ratio dt p
            ++ p.2.drop e)) := by
    simp only [execute_modification]
    rw [if_neg hdiff]
    apply List.map_congr_left
    intro p _
    by_cases hpsel : p.1 ∈ c0 :: rest <;> simp [middleCol, hpsel]
  have hlen : ∀ p ∈ df, (middleCol K s e (c0 :: rest) method value ratio dt p).length
      = modLen method value ratio (e - s) := by
    intro p hp
    have hsl : (sliceCol s e p.2).length = e - s :=
      sliceCol_length s e p.2 hse (by rw [hwf p hp]; exact hen)
    rw [middleCol_eq, applyColFun_length _ _ _ _ _ _ _ (by simp), hsl]
    by_cases hpsel : p.1 ∈ c0 :: rest
    · rw [if_pos hpsel]
    · rw [if_neg hpsel]
      exact modLen_sync method value ratio (e - s) hdm
  have hqlen : ∀ p ∈ df,
      (p.2.take s ++ middleCol K s e (c0 :: rest) method value ratio dt p
        ++ p.2.drop e).length
      = s + modLen method value ratio (e - s) + (nRows df - e) := by
    intro p hp
    have hn := hwf p hp
    simp only [List.length_append, List.length_take, List.length_drop]
    rw [hlen p hp, hn]
    omega
  refine ⟨hmain, hlen, ?_, ?_, ?_, ?_, ?_⟩
  · intro p _ hpsel
    simp [middleCol, hpsel]
  · intro p _ hpsel
    simp [middleCol, hpsel]
  · rw [hmain]
    exact colNames_map
  · intro q hq
    rw [hmain] at hq
    rcases List.mem_map.mp hq with ⟨p, hp, rfl⟩
    exact hqlen p hp
  · cases df with
    | nil => simp [colNames] at hc0
    | cons p restT =>
      rw [hmain]
      simp only [List.map_cons, nRows]
      exact hqlen p (by simp)

theorem upsample_ne {method : String} (hm : method ∈ upsampleMethods) :
    method ≠ "Multiplication" ∧ method ≠ "Division" ∧ method ≠ "Addition" ∧
    method ≠ "Subtraction" ∧ ¬(method = "LPF" ∨ method = "HPF") := by
  simp only [upsampleMethods, List.mem_cons, List.not_mem_nil, or_false] at hm
  rcases hm with h | h | h | h | h | h | h | h | h <;> subst h <;>
    exact ⟨by decide, by decide, by decide, by decide, by decide⟩

theorem down_ne {method : String} (hm : method ∈ downMethods) :
    method ≠ "Multiplication" ∧ method ≠ "Division" ∧ method ≠ "Addition" ∧
    method ≠ "Subtraction" ∧ ¬(method = "LPF" ∨ method = "HPF") ∧
    method ∉ upsampleMethods := by
  simp only [downMethods, List.mem_cons, List.not_mem_nil, or_false] at hm
  rcases hm with h | h | h <;> subst h <;>
    exact ⟨by decide, by decide, by decide, by decide, by decide, by decide⟩

/-- The upsampling branch of the engine, as a per-column map. -/
theorem apply_up_eq (K : KernelFamily) (df : Table) (method : String)
    (value ratio dt : ℚ) (hm : method ∈ upsampleMethods) (hr : ¬ ratio ≤ 1) :
    apply_modification K df method value ratio dt
      = (coerceTable df).map (fun p =>
          (p.1, (List.range ((ratTrunc ((nRows df : ℚ) * ratio)).toNat)).map
            (fun k => K method p.2
              (newIdx (nRows df) ((ratTrunc ((nRows df : ℚ) * ratio)).toNat) k)))) := by
  obtain ⟨hn1, hn2, hn3, hn4, hn5⟩ := upsample_ne hm
  rw [apply_eq_map]
  apply List.map_congr_left
  intro p _
  simp [applyColFun, hn1, hn2, hn3, hn4, hn5, hm, hr]

/-- The downsampling branch of the engine, as a per-column map. -/
theorem apply_down_eq (K : KernelFamily) (df : Table) (method : String)
    (value ratio dt : ℚ) (hm : method ∈ downMethods) (hnr : ¬ (1 : ℚ) ≤ ratio) :
    apply_modification K df method value ratio dt
      = (coerceTable df).map (fun p =>
          (p.1, (chunksP (groupSize ratio - 1) p.2).map (groupReduce method))) := by
  obtain ⟨hn1, hn2, hn3, hn4, hn5, hn6⟩ := down_ne hm
  rw [apply_eq_map]
  apply List.map_congr_left
  intro p _
  simp [applyColFun, hn1, hn2, hn3, hn4, hn5, hn6, hm, hnr]

/-- C4: for every upsampling kernel and ratio > 1, the output row
count is `floor(rowCount * ratio)` and each column independently holds
the kernel evaluated, over the old integer grid `0..n-1`, at the
`floor(n * ratio)` evenly spaced points of `np.linspace(0, n-1, newLen)`. -/
theorem c4_upsample (K : KernelFamily) (df : Table) (method : String)
    (value ratio dt : ℚ) (hm : method ∈ upsampleMethods) (hr : 1 < ratio) :
    (apply_modification K df method value ratio dt
      = (coerceTable df).map (fun p =>
          (p.1, (List.range ((ratTrunc ((nRows df : ℚ) * ratio)).toNat)).map
            (fun k => K method p.2
              (newIdx (nRows df) ((ratTrunc ((nRows df : ℚ) * ratio)).toNat) k))))) ∧
    nRows (apply_modification K df method value ratio dt)
      = (ratTrunc ((nRows df : ℚ) * ratio)).toNat ∧
    (((ratTrunc ((nRows df : ℚ) * ratio)).toNat : ℤ) = ⌊(nRows df : ℚ) * ratio⌋) ∧
    (∀ k : ℕ, 2 ≤ (ratTrunc ((nRows df : ℚ) * ratio)).toNat →
      newIdx (nRows df) ((ratTrunc ((nRows df : ℚ) * ratio)).toNat) k
        = (k : ℚ) * ((nRows df : ℚ) - 1)
            / (((ratTrunc ((nRows df : ℚ) * ratio)).toNat : ℚ) - 1)) := by
  obtain ⟨_, _, _, _, hn5⟩ := upsample_ne hm
  have hnr : ¬ ratio ≤ 1 := not_le.mpr hr
  have hq : (0 : ℚ) ≤ (nRows df : ℚ) * ratio :=
    mul_nonneg (by positivity) (le_of_lt (lt_trans one_pos hr))
  refine ⟨apply_up_eq K df method value ratio dt hm hnr, ?_, ?_, ?_⟩
  · rw [nRows_apply]
    simp [modLen, hn5, hm, hnr]
  · unfold ratTrunc
    rw [if_neg (not_lt.mpr hq)]
    exact Int.toNat_of_nonneg (Int.floor_nonneg.mpr hq)
  · intro k h2
    unfold newIdx
    rw [if_neg (by omega)]

/-- C5: for a downsampling aggregation and 0 < ratio < 1, the group
size is `floor(1/ratio)` (at least 1), the rows are partitioned into
consecutive groups of that size with the last group possibly shorter,
each group is reduced per column by mean ignoring missing values, max,
or min, and the output row count is `ceil(rowCount / groupSize)`.
The last conjunct is Scenario 2. -/
theorem c5_downsample (K : KernelFamily) (df : Table) (method : String)
    (value ratio dt : ℚ) (hm : method ∈ downMethods)
    (hr0 : 0 < ratio) (hr1 : ratio < 1) :
    (apply_modification K df method value ratio dt
      = (coerceTable df).map (fun p =>
          (p.1, (chunksP (groupSize ratio - 1) p.2).map (groupReduce method)))) ∧
    ((groupSize ratio : ℤ) = ⌊1 / ratio⌋) ∧
    nRows (apply_modification K df method value ratio dt)
      = nRows df ⌈/⌉ groupSize ratio ∧
    (∀ col : Col, (chunksP (groupSize ratio - 1) col).flatten = col) ∧
    (∀ col : Col, ∀ g ∈ chunksP (groupSize ratio - 1) col,
      g.length ≤ groupSize ratio) ∧
    (∀ col : Col, ∀ g ∈ (chunksP (groupSize ratio - 1) col).dropLast,
      g.length = groupSize ratio) ∧
    (groupReduce "Average" = meanCell ∧ groupReduce "Max" = maxCell ∧
      groupReduce "Min" = minCell) ∧
    apply_modification Kzero
      [("x", numCol [1, 2, 3, 4, 5, 6, 7, 8, 9, 10])] "Average" 0 (mkRat 1 2) 1
      = [("x", numCol [3/2, 7/2, 11/2, 15/2, 19/2])] := by
  obtain ⟨_, _, _, _, hn5, hn6⟩ := down_ne hm
  have hnr : ¬ (1 : ℚ) ≤ ratio := not_le.mpr hr1
  have hgp := groupSize_pos ratio
  have hg1 : groupSize ratio - 1 + 1 = groupSize ratio := by omega
  have hd1 : (1 : ℚ) ≤ 1 / ratio := by
    rw [le_div_iff₀ hr0]
    linarith
  have htr : ratTrunc (1 / ratio) = ⌊1 / ratio⌋ := by
    unfold ratTrunc
    rw [if_neg (not_lt.mpr (by positivity))]
  have hfl : (1 : ℤ) ≤ ⌊1 / ratio⌋ := Int.le_floor.mpr (by exact_mod_cast hd1)
  refine ⟨apply_down_eq K df method value ratio dt hm hnr, ?_, ?_, ?_, ?_, ?_, ?_, ?_⟩
  · simp only [groupSize, htr]
    rw [if_neg (by omega)]
    exact Int.toNat_of_nonneg (by omega)
  · rw [nRows_apply]
    simp only [modLen, hn5, hn6, hm, hnr, if_neg, if_false, ite_false, ite_true,
      eq_self_iff_true, if_pos]
    rw [Nat.ceilDiv_eq_add_pred_div]
    congr 1
    omega
  · intro col
    rw [← hg1]
    exact chunksP_flatten _ col
  · intro col g hg
    have := chunksP_mem_length_le (groupSize ratio - 1) col g hg
    omega
  · intro col g hg
    have := chunksP_dropLast_length (groupSize ratio - 1) col g hg
    omega
  · refine ⟨?_, ?_, ?_⟩ <;> funext l <;> simp [groupReduce]
  · rw [apply_down_eq Kzero _ "Average" 0 (mkRat 1 2) 1 (by decide) (by decide)]
    have hgs : groupSize (mkRat 1 2) = 2 := by
      norm_num [groupSize, ratTrunc, mkRat]
      decide
    rw [hgs]
    norm_num [chunksP, groupReduce, meanCell, presentVals, RCell.toNum,
      coerceTable, mapCells, coerceCell, numCol]
    norm_num [List.filterMap, RCell.toNum]
    exact ⟨fun h => Option.noConfusion h, fun h => Option.noConfusion h,
      fun h => Option.noConfusion h, fun h => Option.noConfusion h,
      fun h => Option.noConfusion h⟩

/-- The filter branch of the engine, as a per-column map. -/
theorem apply_lpf_eq (K : KernelFamily) (df : Table) (tau ratio dt : ℚ)
    (ht : ¬ tau ≤ 0) :
    apply_modification K df "LPF" tau ratio dt
      = (coerceTable df).map (fun p => (p.1, lpfCol tau dt p.2)) := by
  rw [apply_eq_map]
  apply List.map_congr_left
  intro p _
  simp [applyColFun, ht]

theorem apply_hpf_eq (K : KernelFamily) (df : Table) (tau ratio dt : ℚ)
    (ht : ¬ tau ≤ 0) :
    apply_modification K df "HPF" tau ratio dt
      = (coerceTable df).map (fun p => (p.1, hpfCol tau dt p.2)) := by
  rw [apply_eq_map]
  apply List.map_congr_left
  intro p _
  simp [applyColFun, ht]

theorem lpfGo_num (alpha p : ℚ) (l : List ℚ) :
    lpfGo alpha (RCell.num p) (l.map RCell.num)
      = (lpfAux alpha p l).map RCell.num := by
  induction l generalizing p with
  | nil => rfl
  | cons v vs ih => simp [lpfGo, lpfAux, RCell.toNum, ih]

theorem hpfGo_num (alpha py px : ℚ) (l : List ℚ) :
    hpfGo alpha (RCell.num py) (RCell.num px) (l.map RCell.num)
      = (hpfAux alpha py px l).map RCell.num := by
  induction l generalizing py px with
  | nil => rfl
  | cons v vs ih => simp [hpfGo, hpfAux, RCell.toNum, ih]

theorem lpfAux_length (alpha p : ℚ) (l : List ℚ) :
    (lpfAux alpha p l).length = l.length := by
  induction l generalizing p with
  | nil => rfl
  | cons v vs ih => simp [lpfAux, ih]

theorem hpfAux_length (alpha py px : ℚ) (l : List ℚ) :
    (hpfAux alpha py px l).length = l.length := by
  induction l generalizing py px with
  | nil => rfl
  | cons v vs ih => simp [hpfAux, ih]

theorem lpfAux_getD (alpha : ℚ) (l : List ℚ) :
    ∀ (p : ℚ) (i : ℕ), i < l.length →
      (p :: lpfAux alpha p l).getD (i + 1) 0
        = alpha * l.getD i 0 + (1 - alpha) * (p :: lpfAux alpha p l).getD i 0 := by
  induction l with
  | nil => intro p i hi; cases hi
  | cons v vs ih =>
    intro p i hi
    cases i with
    | zero => simp [lpfAux]
    | succ j =>
      have := ih (alpha * v + (1 - alpha) * p) j (by simpa using Nat.lt_of_succ_lt_succ hi)
      simpa [lpfAux] using this

theorem hpfAux_getD (alpha : ℚ) (l : List ℚ) :
    ∀ (py px : ℚ) (i : ℕ), i < l.length →
      (py :: hpfAux alpha py px l).getD (i + 1) 0
        = alpha * ((py :: hpfAux alpha py px l).getD i 0
            + l.getD i 0 - (px :: l).getD i 0) := by
  induction l with
  | nil => intro py px i hi; cases hi
  | cons v vs ih =>
    intro py px i hi
    cases i with
    | zero => simp [hpfAux]
    | succ j =>
      have := ih (alpha * (py + v - px)) v j (by simpa using Nat.lt_of_succ_lt_succ hi)
      simpa [hpfAux] using this

theorem getD_map_num (l : List ℚ) (k : ℕ) (hk : k < l.length) :
    (l.map RCell.num).getD k RCell.nan = RCell.num (l.getD k 0) := by
  induction l generalizing k with
  | nil => cases hk
  | cons v vs ih =>
    cases k with
    | zero => simp
    | succ j => simpa using ih j (by simpa using Nat.lt_of_succ_lt_succ hk)

theorem lpfIntAux_length (alpha : ℚ) (p : ℤ) (l : List ℤ) :
    (lpfIntAux alpha p l).length = l.length := by
  induction l generalizing p with
  | nil => rfl
  | cons v vs ih => simp [lpfIntAux, ih]

theorem hpfIntAux_length (alpha : ℚ) (py px : ℤ) (l : List ℤ) :
    (hpfIntAux alpha py px l).length = l.length := by
  induction l generalizing py px with
  | nil => rfl
  | cons v vs ih => simp [hpfIntAux, ih]

theorem lpfIntAux_getD (alpha : ℚ) (l : List ℤ) :
    ∀ (p : ℤ) (i : ℕ), i < l.length →
      (p :: lpfIntAux alpha p l).getD (i + 1) 0
        = ratTrunc (alpha * ((l.getD i 0 : ℤ) : ℚ)
            + (1 - alpha) * (((p :: lpfIntAux alpha p l).getD i 0 : ℤ) : ℚ)) := by
  induction l with
  | nil => intro p i hi; cases hi
  | cons v vs ih =>
    intro p i hi
    cases i with
    | zero => simp [lpfIntAux]
    | succ j =>
      have := ih (ratTrunc (alpha * (v : ℚ) + (1 - alpha) * (p : ℚ))) j
        (by simpa using Nat.lt_of_succ_lt_succ hi)
      simpa [lpfIntAux] using this

theorem hpfIntAux_getD (alpha : ℚ) (l : List ℤ) :
    ∀ (py px : ℤ) (i : ℕ), i < l.length →
      (py :: hpfIntAux alpha py px l).getD (i + 1) 0
        = ratTrunc (alpha * ((((py :: hpfIntAux alpha py px l).getD i 0 : ℤ) : ℚ)
            + ((l.getD i 0 : ℤ) : ℚ) - (((px :: l).getD i 0 : ℤ) : ℚ))) := by
  induction l with
  | nil => intro py px i hi; cases hi
  | cons v vs ih =>
    intro py px i hi
    cases i with
    | zero => simp [hpfIntAux]
    | succ j =>
      have := ih (ratTrunc (alpha * ((py : ℚ) + (v : ℚ) - (px : ℚ)))) v j
        (by simpa using Nat.lt_of_succ_lt_succ hi)
      simpa [hpfIntAux] using this

/-- C6 counterexample: the claimed recurrence is not universal over
NaN-free numeric columns.  On a column held at an integer dtype (the
ordinary case for a NaN-free all-integer column), the output buffer
`np.zeros_like(data)` inherits that dtype and every store truncates
toward zero: LPF with tau = dt = 1 on the integer column
`[10, 20, 30]` yields `[10, 15, 22]` in the source, while the claimed
recurrence value at row 2 is `1/2 * 30 + 1/2 * 15 = 22.5`. -/
theorem c6_counterexample :
    lpfColInt 1 1 [10, 20, 30] = [10, 15, 22] ∧
    (22 : ℚ) ≠ 1 / (1 + 1) * 30 + (1 - 1 / (1 + 1)) * 15 := by
  constructor
  · norm_num [lpfColInt, lpfIntAux, ratTrunc]
  · norm_num

/-- C6 amended: for tau > 0, the engine dispatches each column to the
single-pass causal recursions.  On a float64 column (which is what a
column with any missing value is, and the engine model's cell
semantics) the claimed recurrences hold exactly: LPF has
`y[0] = x[0]`, `y[i] = alpha*x[i] + (1-alpha)*y[i-1]` with
`alpha = dt/(tau+dt)`, HPF has `y[0] = 0`,
`y[i] = alpha*(y[i-1] + x[i] - x[i-1])` with `alpha = tau/(tau+dt)`,
and Scenario 4 yields `[10, 15, 22.5]`.  On a column held at an
integer dtype the buffer `np.zeros_like(data)` inherits that dtype,
so each stored output is the same recurrence value truncated toward
zero, and Scenario 4 yields `[10, 15, 22]` instead. -/
theorem c6_amended (K : KernelFamily) (df : Table) (tau ratio dt : ℚ)
    (ht : 0 < tau) :
    (apply_modification K df "LPF" tau ratio dt
      = (coerceTable df).map (fun p => (p.1, lpfCol tau dt p.2))) ∧
    (apply_modification K df "HPF" tau ratio dt
      = (coerceTable df).map (fun p => (p.1, hpfCol tau dt p.2))) ∧
    (∀ x : List ℚ, (lpfCol tau dt (x.map RCell.num)).length = x.length ∧
      (hpfCol tau dt (x.map RCell.num)).length = x.length) ∧
    (∀ (x0 : ℚ) (xs : List ℚ),
      (lpfCol tau dt ((x0 :: xs).map RCell.num)).getD 0 RCell.nan = RCell.num x0 ∧
      (hpfCol tau dt ((x0 :: xs).map RCell.num)).getD 0 RCell.nan = RCell.num 0) ∧
    (∀ (x : List ℚ) (i : ℕ), i + 1 < x.length →
      cellVal ((lpfCol tau dt (x.map RCell.num)).getD (i + 1) RCell.nan)
        = (dt / (tau + dt)) * x.getD (i + 1) 0
          + (1 - dt / (tau + dt))
            * cellVal ((lpfCol tau dt (x.map RCell.num)).getD i RCell.nan)) ∧
    (∀ (x : List ℚ) (i : ℕ), i + 1 < x.length →
      cellVal ((hpfCol tau dt (x.map RCell.num)).getD (i + 1) RCell.nan)
        = (tau / (tau + dt))
          * (cellVal ((hpfCol tau dt (x.map RCell.num)).getD i RCell.nan)
              + x.getD (i + 1) 0 - x.getD i 0)) ∧
    (∀ x : List ℤ, (lpfColInt tau dt x).length = x.length ∧
      (hpfColInt tau dt x).length = x.length) ∧
    (∀ (x0 : ℤ) (xs : List ℤ),
      (lpfColInt tau dt (x0 :: xs)).getD 0 0 = x0 ∧
      (hpfColInt tau dt (x0 :: xs)).getD 0 0 = 0) ∧
    (∀ (x : List ℤ) (i : ℕ), i + 1 < x.length →
      (lpfColInt tau dt x).getD (i + 1) 0
        = ratTrunc (dt / (tau + dt) * ((x.getD (i + 1) 0 : ℤ) : ℚ)
            + (1 - dt / (tau + dt)) * (((lpfColInt tau dt x).getD i 0 : ℤ) : ℚ))) ∧
    (∀ (x : List ℤ) (i : ℕ), i + 1 < x.length →
      (hpfColInt tau dt x).getD (i + 1) 0
        = ratTrunc (tau / (tau + dt)
            * ((((hpfColInt tau dt x).getD i 0 : ℤ) : ℚ)
                + ((x.getD (i + 1) 0 : ℤ) : ℚ) - ((x.getD i 0 : ℤ) : ℚ)))) ∧
    lpfCol 1 1 (numCol [10, 20, 30]) = numCol [10, 15, 45/2] ∧
    lpfColInt 1 1 [10, 20, 30] = [10, 15, 22] := by
  have hnt : ¬ tau ≤ 0 := not_le.mpr ht
  have hlpf : ∀ (x0 : ℚ) (xs : List ℚ),
      lpfCol tau dt ((x0 :: xs).map RCell.num)
        = ((x0 :: lpfAux (dt / (tau + dt)) x0 xs).map RCell.num) := by
    intro x0 xs
    simp [lpfCol, lpfGo_num]
  have hhpf : ∀ (x0 : ℚ) (xs : List ℚ),
      hpfCol tau dt ((x0 :: xs).map RCell.num)
        = (((0 : ℚ) :: hpfAux (tau / (tau + dt)) 0 x0 xs).map RCell.num) := by
    intro x0 xs
    simp [hpfCol, hpfGo_num]
  refine ⟨apply_lpf_eq K df tau ratio dt hnt, apply_hpf_eq K df tau ratio dt hnt,
    ?_, ?_, ?_, ?_, ?_, ?_, ?_, ?_, ?_, ?_⟩
  · intro x
    exact ⟨lpfCol_length tau dt _ |>.trans (by simp),
      hpfCol_length tau dt _ |>.trans (by simp)⟩
  · intro x0 xs
    rw [hlpf, hhpf]
    simp
  · intro x i hi
    cases x with
    | nil => cases hi
    | cons x0 xs =>
      rw [hlpf]
      have hlen : (x0 :: lpfAux (dt / (tau + dt)) x0 xs).length = xs.length + 1 := by
        simp [lpfAux_length]
      have hi' : i < xs.length := by simpa using Nat.lt_of_succ_lt_succ hi
      rw [getD_map_num _ _ (by omega), getD_map_num _ _ (by omega)]
      simp only [cellVal, RCell.toNum, Option.getD_some]
      have := lpfAux_getD (dt / (tau + dt)) xs x0 i hi'
      rw [this]
      simp
  · intro x i hi
    cases x with
    | nil => cases hi
    | cons x0 xs =>
      rw [hhpf]
      have hlen : ((0 : ℚ) :: hpfAux (tau / (tau + dt)) 0 x0 xs).length
          = xs.length + 1 := by
        simp [hpfAux_length]
      have hi' : i < xs.length := by simpa using Nat.lt_of_succ_lt_succ hi
      rw [getD_map_num _ _ (by omega), getD_map_num _ _ (by omega)]
      simp only [cellVal, RCell.toNum, Option.getD_some]
      have := hpfAux_getD (tau / (tau + dt)) xs 0 x0 i hi'
      rw [this]
      simp
  · intro x
    cases x with
    | nil => exact ⟨rfl, rfl⟩
    | cons x0 xs =>
      exact ⟨by simp [lpfColInt, lpfIntAux_length],
        by simp [hpfColInt, hpfIntAux_length]⟩
  · intro x0 xs
    exact ⟨rfl, rfl⟩
  · intro x i hi
    cases x with
    | nil => cases hi
    | cons x0 xs =>
      have hi' : i < xs.length := by simpa using Nat.lt_of_succ_lt_succ hi
      have h := lpfIntAux_getD (dt / (tau + dt)) xs x0 i hi'
      simpa [lpfColInt] using h
  · intro x i hi
    cases x with
    | nil => cases hi
    | cons x0 xs =>
      have hi' : i < xs.length := by simpa using Nat.lt_of_succ_lt_succ hi
      have h := hpfIntAux_getD (tau / (tau + dt)) xs 0 x0 i hi'
      simpa [hpfColInt] using h
  · norm_num [lpfCol, lpfGo, numCol, RCell.toNum]
  · norm_num [lpfColInt, lpfIntAux, ratTrunc]

theorem lpfGo_hold (alpha : ℚ) (cs : Col) :
    ∀ (i : ℕ), i < cs.length → ∀ (p : RCell), (cs.getD i RCell.nan).toNum = none →
      (p :: lpfGo alpha p cs).getD (i + 1) RCell.nan
        = (p :: lpfGo alpha p cs).getD i RCell.nan := by
  induction cs with
  | nil => intro i hi; cases hi
  | cons c cs' ih =>
    intro i hi p hnone
    cases i with
    | zero =>
      simp only [List.getD_cons_zero, List.getD_cons_succ] at hnone ⊢
      simp [lpfGo, hnone]
    | succ j =>
      have hj : j < cs'.length := by simpa using Nat.lt_of_succ_lt_succ hi
      have hnone' : (cs'.getD j RCell.nan).toNum = none := by
        simpa using hnone
      simpa [lpfGo] using
        ih j hj _ hnone'

theorem hpfGo_hold (alpha : ℚ) (cs : Col) :
    ∀ (i : ℕ), i < cs.length →
      ∀ (py px : RCell), (cs.getD i RCell.nan).toNum = none →
      (py :: hpfGo alpha py px cs).getD (i + 1) RCell.nan
        = (py :: hpfGo alpha py px cs).getD i RCell.nan := by
  induction cs with
  | nil => intro i hi; cases hi
  | cons c cs' ih =>
    intro i hi py px hnone
    cases i with
    | zero =>
      simp only [List.getD_cons_zero, List.getD_cons_succ] at hnone ⊢
      simp [hpfGo, hnone]
    | succ j =>
      have hj : j < cs'.length := by simpa using Nat.lt_of_succ_lt_succ hi
      have hnone' : (cs'.getD j RCell.nan).toNum = none := by
        simpa using hnone
      simpa [hpfGo] using
        ih j hj _ _ hnone'

theorem lpfGo_some (alpha : ℚ) (cs : Col) :
    ∀ (p : RCell), p.toNum ≠ none → ∀ (j : ℕ), j < cs.length →
      ((lpfGo alpha p cs).getD j RCell.nan).toNum ≠ none := by
  induction cs with
  | nil => intro p _ j hj; cases hj
  | cons c cs' ih =>
    intro p hp j hj
    rcases hv : c.toNum with _ | v
    · cases j with
      | zero => simpa [lpfGo, hv] using hp
      | succ k =>
        have := ih p hp k (by simpa using Nat.lt_of_succ_lt_succ hj)
        simpa [lpfGo, hv] using this
    · rcases hq : p.toNum with _ | q
      · exact absurd hq hp
      · cases j with
        | zero =>
          simp only [lpfGo, hv, hq, List.getD_cons_zero]
          simp [RCell.toNum]
        | succ k =>
          have := ih (RCell.num (alpha * v + (1 - alpha) * q))
            (by simp [RCell.toNum]) k (by simpa using Nat.lt_of_succ_lt_succ hj)
          simpa [lpfGo, hv, hq] using this

/-- C7 counterexample: a single missing input does propagate NaN
beyond the one held row.  For the HPF the recursion reads `x[i-1]`, so
the first non-missing row after a missing one becomes NaN; for the LPF
a missing `x[0]` seeds `y[0] = NaN`, which then propagates through the
whole output.  Both evaluated on concrete three-row columns with
tau = dt = 1. -/
theorem c7_counterexample :
    apply_modification Kzero [("c", [RCell.num 10, RCell.nan, RCell.num 30])]
        "HPF" 1 1 1
      = [("c", [RCell.num 0, RCell.num 0, RCell.nan])] ∧
    apply_modification Kzero [("c", [RCell.nan, RCell.num 20, RCell.num 30])]
        "LPF" 1 1 1
      = [("c", [RCell.nan, RCell.nan, RCell.nan])] := by
  constructor <;> decide

/-- C7 amended: at every missing input row `i ≥ 1` both filters hold
the output (`y[i] = y[i-1]`).  For the LPF, if `x[0]` is non-missing
then no output row is ever NaN (so nothing propagates); for the HPF
the NaN produced at the first non-missing row after a missing one is
exhibited by the counterexample. -/
theorem c7_amended (tau dt : ℚ) (cells : Col) :
    (∀ i : ℕ, i + 1 < cells.length →
      (cells.getD (i + 1) RCell.nan).toNum = none →
      (lpfCol tau dt cells).getD (i + 1) RCell.nan
        = (lpfCol tau dt cells).getD i RCell.nan) ∧
    (∀ i : ℕ, i + 1 < cells.length →
      (cells.getD (i + 1) RCell.nan).toNum = none →
      (hpfCol tau dt cells).getD (i + 1) RCell.nan
        = (hpfCol tau dt cells).getD i RCell.nan) ∧
    ((cells.getD 0 RCell.nan).toNum ≠ none →
      ∀ j : ℕ, j < cells.length →
        ((lpfCol tau dt cells).getD j RCell.nan).toNum ≠ none) := by
  cases cells with
  | nil =>
    refine ⟨?_, ?_, ?_⟩
    · intro i hi; cases hi
    · intro i hi; cases hi
    · intro _ j hj; cases hj
  | cons x0 rest =>
    refine ⟨?_, ?_, ?_⟩
    · intro i hi hnone
      simp only [lpfCol]
      exact lpfGo_hold (dt / (tau + dt)) rest i
        (by simpa using Nat.lt_of_succ_lt_succ hi) x0 (by simpa using hnone)
    · intro i hi hnone
      simp only [hpfCol]
      exact hpfGo_hold (tau / (tau + dt)) rest i
        (by simpa using Nat.lt_of_succ_lt_succ hi) (RCell.num 0) x0
        (by simpa using hnone)
    · intro h0 j hj
      simp only [List.getD_cons_zero] at h0
      cases j with
      | zero => simpa [lpfCol] using h0
      | succ k =>
        simp only [lpfCol, List.getD_cons_succ]
        exact lpfGo_some (dt / (tau + dt)) rest x0 h0 k
          (by simpa using Nat.lt_of_succ_lt_succ hj)

/-- `return result_df` on the upsampling guard: the coerced copy. -/
theorem apply_up_noop (K : KernelFamily) (df : Table) (method : String)
    (value ratio dt : ℚ) (hm : method ∈ upsampleMethods) (hr : ratio ≤ 1) :
    apply_modification K df method value ratio dt = coerceTable df := by
  obtain ⟨hn1, hn2, hn3, hn4, hn5⟩ := upsample_ne hm
  rw [apply_eq_map]
  refine (List.map_congr_left ?_).trans (List.map_id _)
  intro p _
  simp [applyColFun, hn1, hn2, hn3, hn4, hn5, hm, hr]

/-- `return result_df` on the downsampling guard: the coerced copy. -/
theorem apply_down_noop (K : KernelFamily) (df : Table) (method : String)
    (value ratio dt : ℚ) (hm : method ∈ downMethods) (hr : (1 : ℚ) ≤ ratio) :
    apply_modification K df method value ratio dt = coerceTable df := by
  obtain ⟨hn1, hn2, hn3, hn4, hn5, hn6⟩ := down_ne hm
  rw [apply_eq_map]
  refine (List.map_congr_left ?_).trans (List.map_id _)
  intro p _
  simp [applyColFun, hn1, hn2, hn3, hn4, hn5, hn6, hm, hr]

/-- `return result_df` on the `tau <= 0` filter guard. -/
theorem apply_filter_noop (K : KernelFamily) (df : Table) (method : String)
    (value ratio dt : ℚ) (hm : method = "LPF" ∨ method = "HPF")
    (hv : value ≤ 0) :
    apply_modification K df method value ratio dt = coerceTable df := by
  rw [apply_eq_map]
  refine (List.map_congr_left ?_).trans (List.map_id _)
  intro p _
  rcases hm with h | h <;> subst h <;> simp [applyColFun, hv]

/-- `return result_df` on an unrecognized method string. -/
theorem apply_unknown (K : KernelFamily) (df : Table) (method : String)
    (value ratio dt : ℚ) (hm : method ∉ recognizedMethods) :
    apply_modification K df method value ratio dt = coerceTable df := by
  have hb : method ∉ basicMethods :=
    fun hx => hm (by simp [recognizedMethods, hx])
  have hf : ¬(method = "LPF" ∨ method = "HPF") := by
    rintro (hx | hx) <;> subst hx <;> exact hm (by decide)
  have hu : method ∉ upsampleMethods :=
    fun hx => hm (by simp [recognizedMethods, hx])
  have hd : method ∉ downMethods :=
    fun hx => hm (by simp [recognizedMethods, hx])
  have hb1 : method ≠ "Multiplication" := fun hx => hb (by rw [hx]; decide)
  have hb2 : method ≠ "Division" := fun hx => hb (by rw [hx]; decide)
  have hb3 : method ≠ "Addition" := fun hx => hb (by rw [hx]; decide)
  have hb4 : method ≠ "Subtraction" := fun hx => hb (by rw [hx]; decide)
  rw [apply_eq_map]
  refine (List.map_congr_left ?_).trans (List.map_id _)
  intro p _
  simp [applyColFun, hb1, hb2, hb3, hb4, hf, hu, hd]

/-- C8: a method-ratio mismatch is not an error but an exact no-op on
a numeric subset: any upsampling kernel with ratio <= 1, and any
downsampling aggregation with ratio >= 1, returns the input
unchanged. -/
theorem c8_mismatch_noop (K : KernelFamily) (df : Table) (value ratio dt : ℚ)
    (hnum : NumericTable df) :
    (∀ method ∈ upsampleMethods, ratio ≤ 1 →
      apply_modification K df method value ratio dt = df) ∧
    (∀ method ∈ downMethods, (1 : ℚ) ≤ ratio →
      apply_modification K df method value ratio dt = df) := by
  constructor
  · intro method hmem hr
    rw [apply_up_noop K df method value ratio dt hmem hr,
      coerceTable_of_numeric hnum]
  · intro method hmem hr
    rw [apply_down_noop K df method value ratio dt hmem hr,
      coerceTable_of_numeric hnum]

/-- C9: dividing by the zero scalar is an exact no-op on a numeric
subset (no Inf/NaN is ever produced), while dividing by a nonzero
scalar divides every cell elementwise and keeps the row count. -/
theorem c9_divide (K : KernelFamily) (df : Table) (value ratio dt : ℚ)
    (hnum : NumericTable df) :
    (apply_modification K df "Division" 0 ratio dt = df) ∧
    (value ≠ 0 → apply_modification K df "Division" value ratio dt
      = df.map (fun p => (p.1, p.2.map (cellOp (· / value))))) ∧
    (value ≠ 0 →
      nRows (apply_modification K df "Division" value ratio dt) = nRows df) := by
  refine ⟨?_, ?_, ?_⟩
  · rw [apply_eq_map]
    have hid : ∀ p ∈ coerceTable df,
        ((p.1, applyColFun K "Division" 0 ratio dt (nRows df) p.2) : String × Col)
          = p := by
      intro p _
      simp [applyColFun]
    rw [List.map_congr_left hid, List.map_id', coerceTable_of_numeric hnum]
  · intro hv
    rw [apply_eq_map, coerceTable_of_numeric hnum]
    apply List.map_congr_left
    intro p _
    simp [applyColFun, hv]
  · intro _
    rw [nRows_apply]
    simp [modLen, upsampleMethods, downMethods]

/-- C10 counterexample: `apply_modification` does not return without
raising for every method string and every ratio.  A downsampling
aggregation with ratio = 0 passes the `ratio >= 1` guard and reaches
`group_size = int(1 / ratio)`, where Python float division by zero
raises `ZeroDivisionError` — the condition `applyRaisesDivZero`
models exactly this source line.  "Average" is a recognized method,
so the raise is not confined to unknown strings. -/
theorem c10_counterexample :
    applyRaisesDivZero "Average" 0 ∧ "Average" ∈ recognizedMethods :=
  ⟨⟨by decide, by decide, rfl⟩, by decide⟩

/-- C10 amended: no method string is itself an error; on every
fall-through path (unrecognized method such as the dialog-only "Skip"
and "Median", upsampling with ratio <= 1, downsampling with
ratio >= 1, a filter with tau <= 0) the engine returns the
numeric-coerced copy of the input, in which a cell that does not
parse as numeric has been replaced by NaN rather than kept.  The call
is not total in the ratio, however: the one raising path,
`group_size = int(1 / ratio)`, is reached exactly by a downsampling
aggregation with ratio = 0 (last conjunct); every other branch of the
dispatch is modelled by the total engine function. -/
theorem c10_amended (K : KernelFamily) (df : Table) (method : String)
    (value ratio dt : ℚ) :
    (method ∉ recognizedMethods →
      apply_modification K df method value ratio dt = coerceTable df) ∧
    (method ∈ upsampleMethods → ratio ≤ 1 →
      apply_modification K df method value ratio dt = coerceTable df) ∧
    (method ∈ downMethods → (1 : ℚ) ≤ ratio →
      apply_modification K df method value ratio dt = coerceTable df) ∧
    ((method = "LPF" ∨ method = "HPF") → value ≤ 0 →
      apply_modification K df method value ratio dt = coerceTable df) ∧
    coerceCell RCell.txt = RCell.nan ∧
    coerceCell RCell.nan = RCell.nan ∧
    (∀ q : ℚ, coerceCell (RCell.num q) = RCell.num q) ∧
    "Skip" ∉ recognizedMethods ∧ "Median" ∉ recognizedMethods ∧
    (∀ (m : String) (r : ℚ),
      applyRaisesDivZero m r ↔ m ∈ downMethods ∧ r = 0) := by
  refine ⟨apply_unknown K df method value ratio dt,
    apply_up_noop K df method value ratio dt,
    apply_down_noop K df method value ratio dt,
    apply_filter_noop K df method value ratio dt,
    rfl, rfl, fun _ => rfl, by decide, by decide, ?_⟩
  intro m r
  constructor
  · rintro ⟨hm, _, hr0⟩
    exact ⟨hm, hr0⟩
  · rintro ⟨hm, hr0⟩
    subst hr0
    exact ⟨hm, by norm_num, rfl⟩

theorem lookupCol_cases (df : Table) (c : String) :
    lookupCol df c = [] ∨ ∃ p ∈ df, lookupCol df c = p.2 := by
  unfold lookupCol
  rcases hfind : df.find? (fun q => q.1 == c) with _ | q
  · left
    rw [hfind]
    rfl
  · right
    exact ⟨q, List.mem_of_find?_eq_some hfind, by rw [hfind]; rfl⟩

/-- C3 counterexample: `execute_modification` does not reject an
out-of-range row range.  On a 2-row table the range `[0, 5)` (whose
end exceeds the row count) is silently clamped by slicing and the
operation proceeds, mutating the table, instead of aborting with the
table unchanged. -/
theorem c3_counterexample :
    execute_modification Kzero [("A", [RCell.num 1, RCell.num 2])] 0 5 ["A"]
        "Addition" 5 1 1
      = [("A", [RCell.num 6, RCell.num 7])] ∧
    [("A", [RCell.num 6, RCell.num 7])] ≠ [("A", [RCell.num 1, RCell.num 2])] := by
  constructor
  · rw [execute_basic_in_place Kzero _ 0 5 ["A"] "Addition" 5 1 1 (by decide)
      (by decide) (by decide)]
    norm_num [applyColFun, sliceCol, coerceCell, cellOp, RCell.toNum]
    all_goals decide
  · decide

/-- C3 amended: `execute_modification` performs no range validation
and never aborts: for `start <= end`, bounds beyond the table are
clamped by slicing, i.e. the operation behaves exactly as if run on
`[min start rowCount, min end rowCount)`, and proceeds to mutate the
table.  (Only `preview_selection`, which never mutates, validates the
range, rejecting start < 0, end >= rowCount, or start > end.) -/
theorem c3_amended (K : KernelFamily) (df : Table) (s e : ℕ) (sel : List String)
    (method : String) (value ratio dt : ℚ) (hwf : WF df) (hse : s ≤ e) :
    execute_modification K df s e sel method value ratio dt
      = execute_modification K df (min s (nRows df)) (min e (nRows df)) sel
          method value ratio dt := by
  have htake : ∀ col : Col, (col.length = nRows df ∨ col = []) →
      ∀ k : ℕ, col.take k = col.take (min k (nRows df)) := by
    intro col hcol k
    rcases le_or_lt k (nRows df) with h | h
    · rw [Nat.min_eq_left h]
    · rw [Nat.min_eq_right (le_of_lt h)]
      rcases hcol with hc | hc
      · rw [List.take_of_length_le (by omega), List.take_of_length_le (by omega)]
      · subst hc; simp
  have hdrop : ∀ col : Col, (col.length = nRows df ∨ col = []) →
      ∀ k : ℕ, col.drop k = col.drop (min k (nRows df)) := by
    intro col hcol k
    rcases le_or_lt k (nRows df) with h | h
    · rw [Nat.min_eq_left h]
    · rw [Nat.min_eq_right (le_of_lt h)]
      rcases hcol with hc | hc
      · rw [List.drop_eq_nil_of_le (by omega), List.drop_eq_nil_of_le (by omega)]
      · subst hc; simp
  have hslice : ∀ col : Col, (col.length = nRows df ∨ col = []) →
      sliceCol s e col = sliceCol (min s (nRows df)) (min e (nRows df)) col := by
    intro col hcol
    unfold sliceCol
    rw [htake col hcol e]
    rcases le_or_lt s (nRows df) with h | h
    · rw [Nat.min_eq_left h]
    · rw [Nat.min_eq_right (le_of_lt h)]
      have hxlen : (col.take (min e (nRows df))).length ≤ nRows df := by
        rcases hcol with hc | hc
        · simp [hc]
        · subst hc; simp
      rw [List.drop_eq_nil_of_le (by omega), List.drop_eq_nil_of_le hxlen]
  have hor : ∀ c : String, (lookupCol df c).length = nRows df ∨ lookupCol df c = [] := by
    intro c
    rcases lookupCol_cases df c with h | ⟨p, hp, h⟩
    · right; exact h
    · left; rw [h]; exact hwf p hp
  have hsub_eq : subsetOf df s e sel
      = subsetOf df (min s (nRows df)) (min e (nRows df)) sel := by
    unfold subsetOf
    apply List.map_congr_left
    intro c _
    rw [hslice _ (hor c)]
  simp only [execute_modification]
  rw [hsub_eq]
  by_cases hc : nRows (apply_modification K
      (subsetOf df (min s (nRows df)) (min e (nRows df)) sel) method value ratio dt)
      = nRows (subsetOf df (min s (nRows df)) (min e (nRows df)) sel)
  · rw [if_pos hc, if_pos hc]
    apply List.map_congr_left
    intro p hp
    by_cases hpsel : p.1 ∈ sel
    · simp only [hpsel, if_true, ite_true]
      unfold writeRange
      rw [if_pos hse, if_pos (by omega), htake p.2 (Or.inl (hwf p hp)) s,
        hdrop p.2 (Or.inl (hwf p hp)) e]
    · simp [hpsel]
  · rw [if_neg hc, if_neg hc]
    apply List.map_congr_left
    intro p hp
    have horp : p.2.length = nRows df ∨ p.2 = [] := Or.inl (hwf p hp)
    rw [htake p.2 horp s, hdrop p.2 horp e, hslice p.2 horp]

/-- Witness for C1: upsampling a 2-row 2-column table with Linear and
ratio 2 over the full range rebuilds it with 4 rows. -/
theorem c1_witness :
    nRows (execute_modification Kzero [("A", numCol [1, 2]), ("B", numCol [3, 4])]
      0 2 ["A"] "Linear" 0 2 1) = 4 := by
  have hml : modLen "Linear" 0 2 2 = 4 := by
    norm_num [modLen, upsampleMethods, ratTrunc]
    all_goals decide
  have hdiff : nRows (apply_modification Kzero
      (subsetOf [("A", numCol [1, 2]), ("B", numCol [3, 4])] 0 2 ["A"])
      "Linear" 0 2 1)
      ≠ nRows (subsetOf [("A", numCol [1, 2]), ("B", numCol [3, 4])] 0 2 ["A"]) := by
    rw [nRows_apply,
      show nRows (subsetOf [("A", numCol [1, 2]), ("B", numCol [3, 4])] 0 2 ["A"])
        = 2 by decide, hml]
    decide
  have h := (c1_resample_splice Kzero [("A", numCol [1, 2]), ("B", numCol [3, 4])]
    0 2 ["A"] "Linear" 0 2 1 (by decide) (by decide) (by decide) (by decide)
    (by decide) hdiff).2.2.2.2.2.2
  rw [h, show (2 : ℕ) - 0 = 2 by decide, hml]
  decide

/-- Witness for C2: an in-place Addition splice keeps the row count. -/
theorem c2_witness :
    nRows (execute_modification Kzero [("A", numCol [1, 2, 3])] 0 2 ["A"]
      "Addition" 1 1 1) = 3 :=
  ((c2_splice_in_place Kzero [("A", numCol [1, 2, 3])] 0 2 ["A"] "Addition" 1 1 1
    (by decide) (by decide) (by decide) (by decide) (by decide)).2.1).trans (by decide)

/-- Witness for the amended C3: a splice whose end bound exceeds the
row count equals the splice on the clamped range. -/
theorem c3_witness :
    execute_modification Kzero [("A", numCol [1, 2])] 0 5 ["A"] "Addition" 5 1 1
      = execute_modification Kzero [("A", numCol [1, 2])]
          (min 0 (nRows [("A", numCol [1, 2])]))
          (min 5 (nRows [("A", numCol [1, 2])])) ["A"] "Addition" 5 1 1 :=
  c3_amended Kzero [("A", numCol [1, 2])] 0 5 ["A"] "Addition" 5 1 1
    (by decide) (by decide)

/-- Witness for C4: Linear upsampling of 2 rows at ratio 2 yields
`floor(2 * 2) = 4` rows. -/
theorem c4_witness :
    nRows (apply_modification Kzero [("a", numCol [1, 2])] "Linear" 0 2 1) = 4 := by
  have h := (c4_upsample Kzero [("a", numCol [1, 2])] "Linear" 0 2 1 (by decide)
    (by decide)).2.1
  rw [h, show nRows [("a", numCol [1, 2])] = 2 by decide]
  norm_num [ratTrunc]
  all_goals decide

/-- Witness for C5: Average downsampling of 3 rows at ratio 1/2
(group size 2) yields `ceil(3 / 2) = 2` rows. -/
theorem c5_witness :
    nRows (apply_modification Kzero [("x", numCol [1, 2, 3])] "Average" 0
      (mkRat 1 2) 1) = 2 := by
  have h := (c5_downsample Kzero [("x", numCol [1, 2, 3])] "Average" 0
    (mkRat 1 2) 1 (by decide) (by decide) (by decide)).2.2.1
  rw [h]
  have hgs : groupSize (mkRat 1 2) = 2 := by
    norm_num [groupSize, ratTrunc, mkRat]
    decide
  rw [hgs]
  decide

/-- Witness for the amended C6: the float-path LPF recurrence at
row 1 of `[10, 20]` and the integer-path truncating recurrence at
row 2 of `[10, 20, 30]`, both with tau = dt = 1. -/
theorem c6_witness :
    (cellVal ((lpfCol 1 1 (([10, 20] : List ℚ).map RCell.num)).getD 1 RCell.nan)
      = 1 / (1 + 1) * ([10, 20] : List ℚ).getD 1 0
        + (1 - 1 / (1 + 1))
          * cellVal ((lpfCol 1 1 (([10, 20] : List ℚ).map RCell.num)).getD 0
              RCell.nan)) ∧
    (lpfColInt 1 1 [10, 20, 30]).getD 2 0
      = ratTrunc (1 / (1 + 1) * ((([10, 20, 30] : List ℤ).getD 2 0 : ℤ) : ℚ)
          + (1 - 1 / (1 + 1))
            * (((lpfColInt 1 1 [10, 20, 30]).getD 1 0 : ℤ) : ℚ)) :=
  ⟨(c6_amended Kzero [] 1 1 1 (by decide)).2.2.2.2.1 [10, 20] 0 (by decide),
    (c6_amended Kzero [] 1 1 1 (by decide)).2.2.2.2.2.2.2.2.1 [10, 20, 30] 1
      (by decide)⟩

/-- Witness for the amended C7: the HPF holds its previous output at
the missing row 1 of `[10, NaN, 30]`. -/
theorem c7_witness :
    (hpfCol 1 1 [RCell.num 10, RCell.nan, RCell.num 30]).getD 1 RCell.nan
      = (hpfCol 1 1 [RCell.num 10, RCell.nan, RCell.num 30]).getD 0 RCell.nan :=
  (c7_amended 1 1 [RCell.num 10, RCell.nan, RCell.num 30]).2.1 0 (by decide)
    (by decide)

/-- Witness for C8: with ratio 1 both an upsampling kernel and a
downsampling aggregation return the (NaN-carrying) numeric input
unchanged. -/
theorem c8_witness :
    apply_modification Kzero [("a", [RCell.num 1, RCell.nan])] "Linear" 0 1 1
        = [("a", [RCell.num 1, RCell.nan])] ∧
    apply_modification Kzero [("a", [RCell.num 1, RCell.nan])] "Average" 0 1 1
        = [("a", [RCell.num 1, RCell.nan])] :=
  ⟨(c8_mismatch_noop Kzero [("a", [RCell.num 1, RCell.nan])] 0 1 1 (by decide)).1
      "Linear" (by decide) (by decide),
    (c8_mismatch_noop Kzero [("a", [RCell.num 1, RCell.nan])] 0 1 1 (by decide)).2
      "Average" (by decide) (by decide)⟩

/-- Witness for C9: dividing by the zero scalar returns the numeric
input unchanged. -/
theorem c9_witness :
    apply_modification Kzero [("a", [RCell.num 4, RCell.num 6])] "Division" 0 1 1
      = [("a", [RCell.num 4, RCell.num 6])] :=
  (c9_divide Kzero [("a", [RCell.num 4, RCell.num 6])] 0 1 1 (by decide)).1

/-- Witness for the amended C10: the dialog-only method "Skip" falls
through and returns the coerced copy, in which the text cell has
become NaN; and "Skip" can never reach the raising division. -/
theorem c10_witness :
    (apply_modification Kzero [("a", [RCell.txt, RCell.num 1])] "Skip" 0 1 1
        = coerceTable [("a", [RCell.txt, RCell.num 1])]) ∧
    coerceTable [("a", [RCell.txt, RCell.num 1])]
        = [("a", [RCell.nan, RCell.num 1])] ∧
    ¬ applyRaisesDivZero "Skip" 0 :=
  ⟨(c10_amended Kzero [("a", [RCell.txt, RCell.num 1])] "Skip" 0 1 1).1
      (by decide),
    by decide,
    fun h =>
      absurd ((c10_amended Kzero [("a", [RCell.txt, RCell.num 1])] "Skip" 0 1
        1).2.2.2.2.2.2.2.2.2 "Skip" 0 |>.mp h).1 (by decide)⟩

end DataModify
